import Mathlib

/-!
Shallow embedding of `src/tree.rs` from nix-query-tree-viewer: an ordered
rooted tree (`Tree`), a positional addressing scheme (`Path`, a sequence of
child indices), and a reverse index from item values to the ordered list of
paths at which they occur (`TreePathMap`).

Rust's `VecDeque<usize>` inside `Path` is modelled as a `List Nat`; Rust's
`HashMap<T, Vec<Path>>` inside `TreePathMap` is modelled as an association
list with pairwise-distinct keys (the only map operations used are
`entry`-based insert and `get`, so key iteration order is never observed);
`clone()` on pure values is the identity.  Fallible operations return
`Option`, as in the source.
-/

namespace NixQueryTree

/-- Rust `Path(VecDeque<usize>)` from tree.rs: an ordered, finite sequence of
non-negative integers identifying a node by child-index steps. -/
structure Path where
  steps : List Nat
deriving DecidableEq, Repr

/-- Rust `Path::new`: the empty path. -/
def Path.new : Path := ⟨[]⟩

/-- Rust `Path::split_front`: clone the deque, pop the front element; `none` on
an empty path, otherwise the first step with the remaining path. -/
def Path.split_front : Path → Option (Nat × Path)
  | ⟨[]⟩ => none
  | ⟨i :: rest⟩ => some (i, ⟨rest⟩)

/-- Rust `Path::push_back`: a new path equal to the receiver with `value`
appended at the end. -/
def Path.push_back (p : Path) (value : Nat) : Path := ⟨p.steps ++ [value]⟩

/-- Rust `impl From<Vec<usize>> for Path`: build a path from a literal sequence
of integers, preserving order. -/
def Path.fromVec (other : List Nat) : Path := ⟨other⟩

/-- Rust `Tree<T>` from tree.rs: an `item` together with an ordered sequence of
child subtrees. -/
inductive Tree (T : Type) : Type where
  | mk (item : T) (children : List (Tree T))

/-- The `item` field of a `Tree`. -/
def Tree.item {T : Type} : Tree T → T
  | .mk i _ => i

/-- The `children` field of a `Tree`. -/
def Tree.children {T : Type} : Tree T → List (Tree T)
  | .mk _ c => c

/-- Rust `Tree::new`. -/
def Tree.new {T : Type} (item : T) (children : List (Tree T)) : Tree T :=
  .mk item children

/-- Rust `Tree::singleton`: a leaf with no children. -/
def Tree.singleton {T : Type} (item : T) : Tree T := .mk item []

/-- Rust `Tree::append`: push one subtree onto the end of the children list. -/
def Tree.append {T : Type} (t : Tree T) (new_child_tree : Tree T) : Tree T :=
  .mk t.item (t.children ++ [new_child_tree])

/-- Rust `Tree::lookup`: if the path is empty return the receiver's item;
otherwise split off the first index, return `none` when it is out of bounds
for `children`, and recurse into the addressed child with the rest. -/
def Tree.lookup {T : Type} (t : Tree T) (path : Path) : Option T :=
  match h : path.split_front with
  | none => some t.item
  | some (index, child_path) =>
    match t.children.get? index with
    | none => none
    | some child_tree => child_tree.lookup child_path
termination_by path.steps.length
decreasing_by
  obtain ⟨s⟩ := path
  cases s with
  | nil => simp [Path.split_front] at h
  | cons a r =>
    simp [Path.split_front] at h
    simp [← h.2]

/-- Rust `TreePathMap<T>(HashMap<T, Vec<Path>>)` from tree.rs, modelled as an
association list with pairwise-distinct keys. -/
def TreePathMap (T : Type) : Type := List (T × List Path)

/-- Rust `TreePathMap::new`: the empty map. -/
def TreePathMap.new (T : Type) : TreePathMap T := []

/-- Rust `TreePathMap::insert`: `entry(k).and_modify(push path).or_insert([path])`
— append `path` to `k`'s existing path list, or bind `k` to the
single-element list. -/
def TreePathMap.insert {T : Type} [DecidableEq T]
    (m : TreePathMap T) (k : T) (path : Path) : TreePathMap T :=
  match m with
  | [] => [(k, [path])]
  | (k', paths) :: rest =>
    if k = k' then (k', paths ++ [path]) :: rest
    else (k', paths) :: TreePathMap.insert rest k path

/-- Rust `HashMap::get` on the underlying map: the path list bound to `k`, if
any. -/
def TreePathMap.get {T : Type} [DecidableEq T]
    (m : TreePathMap T) (k : T) : Option (List Path) :=
  match m with
  | [] => none
  | (k', paths) :: rest =>
    if k = k' then some paths else TreePathMap.get rest k

/-- Rust `TreePathMap::lookup_first`: `self.0.get(k).and_then(|v| v.first())`. -/
def TreePathMap.lookup_first {T : Type} [DecidableEq T]
    (m : TreePathMap T) (k : T) : Option Path :=
  (TreePathMap.get m k).bind List.head?

/-- Rust `TreePathMap::insert_children_own`, with the running `enumerate` index
made an explicit argument `i` (the Rust loop visits child `j` of the slice
with index `i = j` counting from 0): insert each child's item at
`path.push_back i`, recurse into its children from index 0, then continue
with the remaining siblings at `i + 1`. -/
def TreePathMap.insert_children_own_from {T : Type} [DecidableEq T]
    (m : TreePathMap T) (children : List (Tree T)) (path : Path) (i : Nat) :
    TreePathMap T :=
  match children with
  | [] => m
  | .mk item cs :: rest =>
    let child_path := path.push_back i
    (((m.insert item child_path).insert_children_own_from cs child_path
        0).insert_children_own_from rest path (i + 1))
termination_by sizeOf children

/-- Rust `TreePathMap::insert_children_own` proper: start the enumeration at 0. -/
def TreePathMap.insert_children_own {T : Type} [DecidableEq T]
    (m : TreePathMap T) (children : List (Tree T)) (path : Path) :
    TreePathMap T :=
  m.insert_children_own_from children path 0

/-- Rust `TreePathMap::insert_children` (the borrowing variant), with the
`enumerate` index explicit: identical to `insert_children_own_from` except
that items are cloned instead of moved — the identity in this pure model. -/
def TreePathMap.insert_children_from {T : Type} [DecidableEq T]
    (m : TreePathMap T) (children : List (Tree T)) (path : Path) (i : Nat) :
    TreePathMap T :=
  match children with
  | [] => m
  | .mk item cs :: rest =>
    let child_path := path.push_back i
    (((m.insert item child_path).insert_children_from cs child_path
        0).insert_children_from rest path (i + 1))
termination_by sizeOf children

/-- Rust `TreePathMap::insert_children` proper: start the enumeration at 0. -/
def TreePathMap.insert_children {T : Type} [DecidableEq T]
    (m : TreePathMap T) (children : List (Tree T)) (path : Path) :
    TreePathMap T :=
  m.insert_children_from children path 0

/-- Rust `impl From<Tree<T>> for TreePathMap<T>`: the consuming construction —
insert the root item at the empty path, then all children. -/
def TreePathMap.fromTree {T : Type} [DecidableEq T] (other : Tree T) :
    TreePathMap T :=
  ((TreePathMap.new T).insert other.item Path.new).insert_children_own
    other.children Path.new

/-- Rust `impl From<&Tree<T>> for TreePathMap<T>`: the borrowing construction —
insert a clone of the root item at the empty path, then all children via
`insert_children`. -/
def TreePathMap.fromTreeRef {T : Type} [DecidableEq T] (other : Tree T) :
    TreePathMap T :=
  ((TreePathMap.new T).insert other.item Path.new).insert_children
    other.children Path.new

/-- Specification-side enumeration of a forest in pre-order,
children-in-index-order: child `j` of the list is visited at absolute path
`path.push_back (i + j)`, its whole subtree before the next sibling. -/
def preorder_forest {T : Type} :
    List (Tree T) → Path → Nat → List (Path × T)
  | [], _, _ => []
  | .mk item cs :: rest, path, i =>
    (path.push_back i, item) ::
      (preorder_forest cs (path.push_back i) 0 ++
        preorder_forest rest path (i + 1))
termination_by children => sizeOf children

/-- Specification-side enumeration of all nodes of a tree in pre-order,
children-in-index-order discovery order, each paired with its absolute
path from the root. -/
def Tree.preorder {T : Type} (t : Tree T) : List (Path × T) :=
  (Path.new, t.item) :: preorder_forest t.children Path.new 0

/-- The path list recorded for `k`, with absence read as the empty list. -/
def pathsOf {T : Type} [DecidableEq T] (m : TreePathMap T) (k : T) :
    List Path := (TreePathMap.get m k).getD []

/-- Specification-side drain of a path by repeated `split_front`. -/
def Path.drain (p : Path) : List Nat :=
  match h : p.split_front with
  | none => []
  | some (i, rest) => i :: rest.drain
termination_by p.steps.length
decreasing_by
  obtain ⟨s⟩ := p
  cases s with
  | nil => simp [Path.split_front] at h
  | cons a r =>
    simp [Path.split_front] at h
    simp [← h.2]

theorem Path.split_front_mk_nil : Path.split_front ⟨[]⟩ = none := rfl

theorem Path.split_front_mk_cons (i : Nat) (r : List Nat) :
    Path.split_front ⟨i :: r⟩ = some (i, ⟨r⟩) := rfl

theorem Tree.lookup_mk_nil {T : Type} (t : Tree T) :
    t.lookup ⟨[]⟩ = some t.item := by
  rw [Tree.lookup]
  rfl

theorem Tree.lookup_mk_cons {T : Type} (t : Tree T) (i : Nat)
    (r : List Nat) :
    t.lookup ⟨i :: r⟩ =
      match t.children.get? i with
      | none => none
      | some child_tree => child_tree.lookup ⟨r⟩ := by
  rw [Tree.lookup]
  rfl

theorem TreePathMap.get_insert {T : Type} [DecidableEq T]
    (m : TreePathMap T) (k q : T) (p : Path) :
    TreePathMap.get (TreePathMap.insert m k p) q =
      if q = k then some ((TreePathMap.get m q).getD [] ++ [p])
      else TreePathMap.get m q := by
  induction m with
  | nil =>
    by_cases h : q = k <;>
      simp [TreePathMap.insert, TreePathMap.get, h]
  | cons a rest ih =>
    obtain ⟨k', paths⟩ := a
    rw [TreePathMap.insert]
    by_cases hk : k = k'
    · subst hk
      by_cases hq : q = k <;>
        simp [TreePathMap.get, hq, if_pos, if_neg]
    · rw [if_neg hk]
      by_cases hq : q = k'
      · subst hq
        have : ¬ q = k := fun h => hk (h ▸ rfl)
        simp [TreePathMap.get, this]
      · simp [TreePathMap.get, hq, ih]

theorem pathsOf_insert {T : Type} [DecidableEq T]
    (m : TreePathMap T) (k q : T) (p : Path) :
    pathsOf (TreePathMap.insert m k p) q =
      pathsOf m q ++ (if q = k then [p] else []) := by
  unfold pathsOf
  rw [TreePathMap.get_insert]
  by_cases h : q = k <;> simp [h]

theorem pathsOf_insert_children_own_from {T : Type} [DecidableEq T]
    (children : List (Tree T)) (path : Path) (i : Nat) :
    ∀ (m : TreePathMap T) (k : T),
      pathsOf (TreePathMap.insert_children_own_from m children path i) k =
        pathsOf m k ++
          (preorder_forest children path i).filterMap
            (fun q => if q.2 = k then some q.1 else none) := by
  induction children, path, i using preorder_forest.induct with
  | case1 path i =>
    intro m k
    simp [TreePathMap.insert_children_own_from, preorder_forest]
  | case2 item cs rest path i ih1 ih2 =>
    intro m k
    rw [TreePathMap.insert_children_own_from]
    simp only [ih2, ih1, pathsOf_insert, preorder_forest,
      List.filterMap_cons, List.filterMap_append, List.append_assoc]
    by_cases h : item = k
    · simp [h]
    · simp [h, Ne.symm h]

theorem insert_children_from_eq_own {T : Type} [DecidableEq T]
    (children : List (Tree T)) (path : Path) (i : Nat) :
    ∀ m : TreePathMap T,
      TreePathMap.insert_children_from m children path i =
        TreePathMap.insert_children_own_from m children path i := by
  induction children, path, i using preorder_forest.induct with
  | case1 path i =>
    intro m
    rw [TreePathMap.insert_children_from,
      TreePathMap.insert_children_own_from]
  | case2 item cs rest path i ih1 ih2 =>
    intro m
    rw [TreePathMap.insert_children_from,
      TreePathMap.insert_children_own_from]
    rw [ih1, ih2]

theorem pathsOf_fromTree {T : Type} [DecidableEq T] (t : Tree T) (k : T) :
    pathsOf (TreePathMap.fromTree t) k =
      (t.preorder).filterMap
        (fun q => if q.2 = k then some q.1 else none) := by
  rw [TreePathMap.fromTree, TreePathMap.insert_children_own,
    pathsOf_insert_children_own_from, pathsOf_insert, Tree.preorder,
    List.filterMap_cons]
  have hnew : pathsOf (TreePathMap.new T) k = [] := rfl
  rw [hnew]
  by_cases h : t.item = k
  · simp [h]
  · simp [h, Ne.symm h]

theorem fromTreeRef_eq_fromTree {T : Type} [DecidableEq T] (t : Tree T) :
    TreePathMap.fromTreeRef t = TreePathMap.fromTree t := by
  rw [TreePathMap.fromTreeRef, TreePathMap.fromTree,
    TreePathMap.insert_children, TreePathMap.insert_children_own,
    insert_children_from_eq_own]

theorem mem_preorder_forest_lookup {T : Type} (children : List (Tree T))
    (path : Path) (i : Nat) :
    ∀ (q : Path) (x : T), (q, x) ∈ preorder_forest children path i →
      ∃ j c r, List.get? children j = some c ∧
        q = ⟨path.steps ++ (i + j) :: r⟩ ∧
        Tree.lookup c ⟨r⟩ = some x := by
  induction children, path, i using preorder_forest.induct with
  | case1 path i => simp [preorder_forest]
  | case2 item cs rest path i ih1 ih2 =>
    intro q x hq
    rw [preorder_forest] at hq
    simp only [List.mem_cons, List.mem_append] at hq
    rcases hq with h | h | h
    · obtain ⟨hq, hx⟩ := Prod.mk.injEq .. ▸ h
      refine ⟨0, .mk item cs, [], rfl, ?_, ?_⟩
      · rw [hq]
        simp [Path.push_back]
      · rw [Tree.lookup_mk_nil, hx, Tree.item]
    · obtain ⟨j, c, r, hget, hq, hl⟩ := ih1 q x h
      refine ⟨0, .mk item cs, j :: r, rfl, ?_, ?_⟩
      · rw [hq]
        simp [Path.push_back]
      · rw [Tree.lookup_mk_cons, Tree.children]
        rw [List.get?_eq_getElem?] at hget
        simp [hget, hl]
    · obtain ⟨j, c, r, hget, hq, hl⟩ := ih2 q x h
      refine ⟨j + 1, c, r, by simpa using hget, ?_, hl⟩
      rw [hq]
      have : i + 1 + j = i + (j + 1) := by omega
      rw [this]

theorem mem_preorder_lookup {T : Type} (t : Tree T) (q : Path) (x : T) :
    (q, x) ∈ t.preorder → Tree.lookup t q = some x := by
  intro hq
  rw [Tree.preorder] at hq
  simp only [List.mem_cons] at hq
  rcases hq with h | h
  · obtain ⟨hq, hx⟩ := Prod.mk.injEq .. ▸ h
    rw [hq, Path.new, Tree.lookup_mk_nil, hx]
  · obtain ⟨j, c, r, hget, hq, hl⟩ := mem_preorder_forest_lookup _ _ _ _ _ h
    rw [hq]
    simp only [Path.new, List.nil_append, Nat.zero_add]
    rw [Tree.lookup_mk_cons]
    rw [List.get?_eq_getElem?] at hget
    simp [hget, hl]

theorem get_insert_ne_nil {T : Type} [DecidableEq T] (m : TreePathMap T)
    (k : T) (p : Path)
    (hm : ∀ q ps, TreePathMap.get m q = some ps → ps ≠ []) :
    ∀ q ps, TreePathMap.get (TreePathMap.insert m k p) q = some ps →
      ps ≠ [] := by
  intro q ps h
  rw [TreePathMap.get_insert] at h
  by_cases hq : q = k
  · rw [if_pos hq] at h
    obtain rfl := Option.some.injEq .. ▸ h
    exact List.append_ne_nil_of_right_ne_nil _ (by simp)
  · rw [if_neg hq] at h
    exact hm q ps h

theorem get_insert_children_own_from_ne_nil {T : Type} [DecidableEq T]
    (children : List (Tree T)) (path : Path) (i : Nat) :
    ∀ m : TreePathMap T,
      (∀ q ps, TreePathMap.get m q = some ps → ps ≠ []) →
      ∀ q ps,
        TreePathMap.get
            (TreePathMap.insert_children_own_from m children path i) q =
          some ps → ps ≠ [] := by
  induction children, path, i using preorder_forest.induct with
  | case1 path i =>
    intro m hm
    rw [TreePathMap.insert_children_own_from]
    exact hm
  | case2 item cs rest path i ih1 ih2 =>
    intro m hm
    rw [TreePathMap.insert_children_own_from]
    exact ih2 _ (ih1 _ (get_insert_ne_nil _ _ _ hm))

theorem get_fromTree_ne_nil {T : Type} [DecidableEq T] (t : Tree T) :
    ∀ q ps, TreePathMap.get (TreePathMap.fromTree t) q = some ps →
      ps ≠ [] := by
  rw [TreePathMap.fromTree, TreePathMap.insert_children_own]
  refine get_insert_children_own_from_ne_nil _ _ _ _
    (get_insert_ne_nil _ _ _ ?_)
  intro q ps h
  simp [TreePathMap.new, TreePathMap.get] at h

theorem Path.drain_mk_nil : Path.drain ⟨[]⟩ = [] := by
  rw [Path.drain]
  rfl

theorem Path.drain_mk_cons (i : Nat) (r : List Nat) :
    Path.drain ⟨i :: r⟩ = i :: Path.drain ⟨r⟩ := by
  rw [Path.drain]
  rfl

theorem drain_mk (l : List Nat) : Path.drain ⟨l⟩ = l := by
  induction l with
  | nil => exact Path.drain_mk_nil
  | cons a r ih => rw [Path.drain_mk_cons, ih]

theorem foldl_push_back (l : List Nat) :
    ∀ acc : List Nat, List.foldl Path.push_back ⟨acc⟩ l = ⟨acc ++ l⟩ := by
  induction l with
  | nil => intro acc; simp
  | cons a r ih =>
    intro acc
    rw [List.foldl_cons,
      show Path.push_back ⟨acc⟩ a = ⟨acc ++ [a]⟩ from rfl, ih]
    simp

/-- C1: for every tree and the PathIndex built from it by either
construction variant, each node at path `p` with item `k` contributes
exactly one occurrence of `p` to the path list recorded for `k`, and each
key's path list is exactly the subsequence of the pre-order,
children-in-index-order enumeration of the tree that carries that key:
the root's empty path first when the root's item is `k`, and all paths
from child `i`'s subtree before any path from child `i + 1`'s subtree. -/
theorem claim1_pathIndex_complete_ordered {T : Type} [DecidableEq T]
    (t : Tree T) (k : T) :
    pathsOf (TreePathMap.fromTree t) k =
        (t.preorder).filterMap
          (fun q => if q.2 = k then some q.1 else none) ∧
      pathsOf (TreePathMap.fromTreeRef t) k =
        (t.preorder).filterMap
          (fun q => if q.2 = k then some q.1 else none) := by
  refine ⟨pathsOf_fromTree t k, ?_⟩
  rw [fromTreeRef_eq_fromTree]
  exact pathsOf_fromTree t k

/-- C2: the consuming construction (`From<Tree<T>>`) and the borrowing
construction (`From<&Tree<T>>`, which clones items) produce equal
PathIndex contents — the same keys bound to the same path lists in the
same order.  The borrowing variant leaves the source tree unchanged by
construction in this pure embedding: it only reads `t`. -/
theorem claim2_construction_variants_equal {T : Type} [DecidableEq T]
    (t : Tree T) :
    TreePathMap.fromTree t = TreePathMap.fromTreeRef t :=
  (fromTreeRef_eq_fromTree t).symm

/-- C3: `Tree::lookup` returns the receiver's own item on the empty path;
on a path with first index `i` and rest `r` it returns `none` when `i` is
at least the number of children (in particular on a childless node, where
the count is 0), and equals `children[i].lookup(r)` otherwise.  `lookup`
is a total function in this embedding, so it never raises an error. -/
theorem claim3_lookup_spec {T : Type} (t : Tree T) :
    Tree.lookup t ⟨[]⟩ = some t.item ∧
      (∀ i r, t.children.length ≤ i → Tree.lookup t ⟨i :: r⟩ = none) ∧
      (∀ i r c, List.get? t.children i = some c →
        Tree.lookup t ⟨i :: r⟩ = Tree.lookup c ⟨r⟩) := by
  refine ⟨Tree.lookup_mk_nil t, ?_, ?_⟩
  · intro i r h
    rw [Tree.lookup_mk_cons]
    have hnone : t.children.get? i = none := List.get?_eq_none.mpr h
    rw [hnone]
  · intro i r c h
    rw [Tree.lookup_mk_cons, h]

theorem claim3_lookup_spec_witness :
    Tree.lookup (Tree.new (0 : Nat) [Tree.singleton 1]) ⟨[3]⟩ = none ∧
      Tree.lookup (Tree.new (0 : Nat) [Tree.singleton 1]) ⟨[0]⟩ =
        Tree.lookup (Tree.singleton (1 : Nat)) ⟨[]⟩ := by
  constructor
  · exact (claim3_lookup_spec _).2.1 3 [] (by decide)
  · exact (claim3_lookup_spec _).2.2 0 [] _ rfl

/-- C4: every path recorded for a key `k` in the index built from `t`
resolves via `Tree::lookup` to `k`; no key is bound to an empty path
list, and every key present in the index does occur somewhere in `t`
(hence a value with no occurrence is absent). -/
theorem claim4_index_invariant {T : Type} [DecidableEq T] (t : Tree T)
    (k : T) (ps : List Path)
    (h : TreePathMap.get (TreePathMap.fromTree t) k = some ps) :
    ps ≠ [] ∧ (∀ p ∈ ps, Tree.lookup t p = some k) ∧
      ∃ p, Tree.lookup t p = some k := by
  have hmemall : ∀ p ∈ ps, Tree.lookup t p = some k := by
    intro p hp
    have hps : pathsOf (TreePathMap.fromTree t) k = ps := by
      rw [pathsOf, h]
      rfl
    rw [pathsOf_fromTree] at hps
    rw [← hps] at hp
    obtain ⟨⟨q, x⟩, hmem, hfx⟩ := List.mem_filterMap.mp hp
    simp only at hfx
    by_cases hx : x = k
    · rw [if_pos hx] at hfx
      have hlq := mem_preorder_lookup t q x hmem
      rw [Option.some.injEq] at hfx
      rw [← hfx, hlq, hx]
    · rw [if_neg hx] at hfx
      exact absurd hfx (by simp)
  have hne : ps ≠ [] := get_fromTree_ne_nil t k ps h
  refine ⟨hne, hmemall, ?_⟩
  obtain ⟨p, hp⟩ := List.exists_mem_of_ne_nil ps hne
  exact ⟨p, hmemall p hp⟩

theorem claim4_index_invariant_witness :
    ([⟨[]⟩, ⟨[0]⟩] : List Path) ≠ [] ∧
      Tree.lookup (Tree.mk (0 : Nat) [Tree.mk 0 []]) ⟨[0]⟩ = some 0 := by
  have h : TreePathMap.get
      (TreePathMap.fromTree (Tree.mk (0 : Nat) [Tree.mk 0 []])) 0 =
      some [⟨[]⟩, ⟨[0]⟩] := by
    rw [TreePathMap.fromTree, TreePathMap.insert_children_own]
    simp [TreePathMap.insert_children_own_from, TreePathMap.insert,
      TreePathMap.new, TreePathMap.get, Path.new, Path.push_back,
      Tree.item, Tree.children]
  have hmain := claim4_index_invariant _ 0 _ h
  refine ⟨hmain.1, ?_⟩
  exact hmain.2.1 ⟨[0]⟩ (by simp)

/-- C5: `TreePathMap::insert` appends the given path at the end of the
key's path list (creating the single-element list when the key is new,
since absence reads as the empty list), and leaves every other key's
binding unchanged; hence insertion order per key is preserved across
repeated inserts. -/
theorem claim5_insert_spec {T : Type} [DecidableEq T]
    (m : TreePathMap T) (k : T) (p : Path) :
    TreePathMap.get (TreePathMap.insert m k p) k =
        some ((TreePathMap.get m k).getD [] ++ [p]) ∧
      ∀ q, q ≠ k →
        TreePathMap.get (TreePathMap.insert m k p) q =
          TreePathMap.get m q := by
  constructor
  · rw [TreePathMap.get_insert, if_pos rfl]
  · intro q hq
    rw [TreePathMap.get_insert, if_neg hq]

theorem claim5_insert_spec_witness :
    TreePathMap.get
        (TreePathMap.insert (TreePathMap.new Nat) 1 ⟨[0]⟩) 2 =
      TreePathMap.get (TreePathMap.new Nat) 2 :=
  (claim5_insert_spec (TreePathMap.new Nat) 1 ⟨[0]⟩).2 2 (by decide)

/-- C6: `lookup_first` returns element 0 of the key's recorded path list,
absence when the key was never recorded, and on an index built from a
tree it returns the discovery-order (pre-order) first occurrence of the
key; it is a pure query and modifies nothing. -/
theorem claim6_lookup_first_spec {T : Type} [DecidableEq T]
    (m : TreePathMap T) (t : Tree T) (k : T) :
    (∀ ps, TreePathMap.get m k = some ps →
        TreePathMap.lookup_first m k = ps.head?) ∧
      (TreePathMap.get m k = none →
        TreePathMap.lookup_first m k = none) ∧
      TreePathMap.lookup_first (TreePathMap.fromTree t) k =
        ((t.preorder).filterMap
          (fun q => if q.2 = k then some q.1 else none)).head? := by
  refine ⟨?_, ?_, ?_⟩
  · intro ps h
    rw [TreePathMap.lookup_first, h]
    rfl
  · intro h
    rw [TreePathMap.lookup_first, h]
    rfl
  · rw [← pathsOf_fromTree, TreePathMap.lookup_first, pathsOf]
    cases h : TreePathMap.get (TreePathMap.fromTree t) k <;> simp

theorem claim6_lookup_first_spec_witness :
    TreePathMap.lookup_first
        (TreePathMap.insert (TreePathMap.new Nat) 1 ⟨[0]⟩) 1 =
      ([⟨[0]⟩] : List Path).head? :=
  (claim6_lookup_first_spec (TreePathMap.insert (TreePathMap.new Nat) 1
    ⟨[0]⟩) (Tree.mk 0 []) 1).1 [⟨[0]⟩] rfl

/-- C7: after appending a child to a tree with `n` children, looking up
the one-step path `[n]` yields the new child's item, and every path that
was valid before the append still resolves to the same item as before. -/
theorem claim7_append_frame {T : Type} (t c : Tree T) :
    Tree.lookup (t.append c) ⟨[t.children.length]⟩ = some c.item ∧
      ∀ p, Tree.lookup t p ≠ none →
        Tree.lookup (t.append c) p = Tree.lookup t p := by
  constructor
  · rw [Tree.lookup_mk_cons,
      show (t.append c).children = t.children ++ [c] from rfl,
      List.get?_concat_length]
    exact Tree.lookup_mk_nil c
  · intro p hp
    obtain ⟨s⟩ := p
    cases s with
    | nil =>
      rw [Tree.lookup_mk_nil, Tree.lookup_mk_nil]
      rfl
    | cons i r =>
      rw [Tree.lookup_mk_cons] at hp ⊢
      rw [Tree.lookup_mk_cons,
        show (t.append c).children = t.children ++ [c] from rfl]
      cases hg : t.children.get? i with
      | none =>
        rw [hg] at hp
        simp at hp
      | some ci =>
        obtain ⟨hi, _⟩ := List.get?_eq_some.mp hg
        rw [List.get?_append hi, hg]

theorem claim7_append_frame_witness :
    Tree.lookup
        ((Tree.new (0 : Nat) [Tree.singleton 1]).append (Tree.singleton 2))
        ⟨[0]⟩ =
      Tree.lookup (Tree.new (0 : Nat) [Tree.singleton 1]) ⟨[0]⟩ := by
  have hne : Tree.lookup (Tree.new (0 : Nat) [Tree.singleton 1]) ⟨[0]⟩ ≠
      none := by
    rw [show ((⟨[0]⟩ : Path)) = (⟨0 :: []⟩ : Path) from rfl,
      Tree.lookup_mk_cons]
    simp [Tree.new, Tree.singleton, Tree.children, Tree.lookup_mk_nil]
  exact (claim7_append_frame _ _).2 ⟨[0]⟩ hne

/-- C8: `split_front` returns `none` exactly on the empty path; on a
non-empty path it returns the first step together with a path holding the
remaining steps in order.  Both results are fresh values: the receiver is
unchanged, which in this pure embedding holds by construction. -/
theorem claim8_split_front_spec (p : Path) :
    (p.split_front = none ↔ p = Path.new) ∧
      ∀ i r, p.steps = i :: r → p.split_front = some (i, ⟨r⟩) := by
  obtain ⟨s⟩ := p
  constructor
  · cases s <;> simp [Path.split_front, Path.new]
  · intro i r h
    simp only at h
    subst h
    rfl

theorem claim8_split_front_spec_witness :
    Path.split_front ⟨[5, 7]⟩ = some (5, ⟨[7]⟩) :=
  (claim8_split_front_spec ⟨[5, 7]⟩).2 5 [7] rfl

/-- C9: `push_back` returns a new path whose step sequence is the
receiver's with the value appended at the end (the receiver, a pure
value, is unchanged); in particular pushing onto the empty path and then
splitting returns the pushed value and the empty path. -/
theorem claim9_push_back_spec (p : Path) (v : Nat) :
    (p.push_back v).steps = p.steps ++ [v] ∧
      (Path.new.push_back v).split_front = some (v, Path.new) :=
  ⟨rfl, rfl⟩

/-- C10: the path built from a literal sequence equals the empty path
extended by `push_back` with the elements in order, and repeatedly
applying `split_front` to it (the `drain` recursion) yields exactly those
elements in order and then absence. -/
theorem claim10_fromVec_spec (l : List Nat) :
    Path.fromVec l = List.foldl Path.push_back Path.new l ∧
      Path.drain (Path.fromVec l) = l := by
  constructor
  · rw [Path.new, foldl_push_back l [], Path.fromVec]
    simp
  · exact drain_mk l

end NixQueryTree
